import Mathlib

/-!
Formal model of the dcommute repository.

Part 1 embeds the route-time projection `BusTimetableAnalyzer.predict_route_times`
from `bus_timetable_test.py`.  Scheduled clock times are minutes since
midnight (`Nat`, via `parse_time`/`time_to_minutes`); travel-time lookups
return minutes as exact rationals (`ℚ`), standing in for the Python floats
produced by `duration / 60`.  An `Option` `none` plays the role both of
Python's `None` (failed lookup) and of the timetable sentinels: the input
marker for a stop the bus does not serve, and the dash fields of its output
row.

Part 2 embeds the TransXChange stop-sequence extraction
`extract_stops_from_xml` from `extract_stops.py`, over an abstract document
structure holding exactly the XML fields the function reads.
-/

/-- A timetable row of the input: a stop name paired with its scheduled
time in minutes since midnight, or `none` for the sentinel meaning the bus
does not stop here (the `STOPS`/`TIMETABLE` parallel lists, zipped). -/
structure ScheduleEntry where
  stop : String
  scheduled : Option Nat
  deriving DecidableEq, Repr

/-- One output row of `predict_route_times`.  The `none` fields correspond
to the dash sentinels emitted for unserved stops. -/
structure ProjectionRecord where
  stop : String
  timetable : Option Nat
  extraTraffic : Option ℚ
  predictedArrival : Option ℚ
  deriving DecidableEq, Repr

/-- Round half to even, as Python's builtin `round` does on an exact value. -/
def roundHalfEven (q : ℚ) : ℤ :=
  if q - ⌊q⌋ < 1 / 2 then ⌊q⌋
  else if q - ⌊q⌋ > 1 / 2 then ⌊q⌋ + 1
  else if ⌊q⌋ % 2 = 0 then ⌊q⌋ else ⌊q⌋ + 1

/-- Python's `round(x, 1)`: round to one decimal place, half to even. -/
def pyRound1 (q : ℚ) : ℚ := (roundHalfEven (10 * q) : ℚ) / 10

/-- The backward scan of `predict_route_times` (the `for j in
range(i-1, -1, -1)` loop): given the already-processed timetable prefix in
route order, walk from the most recent entry down to index 0 and return the
scheduled time of the nearest served entry, if any. -/
def find_last_scheduled : List (Option Nat) → Option Nat
  | [] => none
  | t :: rest =>
    match find_last_scheduled rest with
    | some v => some v
    | none => t

/-- The extra-traffic computation for a served stop: comparing the actual
leg `actual - lastTime` against the scheduled leg `m - last_scheduled_time`,
floored at zero; zero when the backward scan finds no prior served entry. -/
def extraDelayCalc (prev : List (Option Nat)) (lastTime actual : ℚ) (m : Nat) : ℚ :=
  match find_last_scheduled prev with
  | some ls => max 0 ((actual - lastTime) - ((m : ℚ) - (ls : ℚ)))
  | none => 0

/-- The loop state of `predict_route_times`: `last_used_stop`,
`last_used_time`, and the timetable entries already processed (the prefix
the backward scan reads). -/
structure LoopState where
  lastUsedStop : String
  lastUsedTime : ℚ
  prevSched : List (Option Nat)
  deriving DecidableEq

/-- Result of one iteration of the main loop: the updated state, the rows
appended to `results` (empty when the lookup fails), and the travel-time
lookups performed (as origin-destination pairs). -/
structure StepOut where
  state : LoopState
  records : List ProjectionRecord
  calls : List (String × String)
  deriving DecidableEq

/-- One iteration of the loop body of `predict_route_times` for an entry at
index `i ≥ 1`.  A served stop queries the lookup from `last_used_stop`; on
failure the row is dropped and `last_used_stop`/`last_used_time` keep their
values; on success the arrival is clamped to the scheduled time, the
extra-traffic delay is computed against the nearest prior served entry, and
the state advances.  An unserved stop emits the sentinel row and performs
no lookup. -/
def processEntry (lookup : String → String → Option ℚ) (st : LoopState)
    (e : ScheduleEntry) : StepOut :=
  match e.scheduled with
  | some m =>
    match lookup st.lastUsedStop e.stop with
    | none =>
      ⟨⟨st.lastUsedStop, st.lastUsedTime, st.prevSched ++ [some m]⟩, [],
        [(st.lastUsedStop, e.stop)]⟩
    | some travel =>
      let predicted := st.lastUsedTime + travel
      let actual := max predicted (m : ℚ)
      let extra := extraDelayCalc st.prevSched st.lastUsedTime actual m
      ⟨⟨e.stop, actual, st.prevSched ++ [some m]⟩,
        [⟨e.stop, some m, some (pyRound1 extra), some actual⟩],
        [(st.lastUsedStop, e.stop)]⟩
  | none =>
    ⟨⟨st.lastUsedStop, st.lastUsedTime, st.prevSched ++ [none]⟩,
      [⟨e.stop, none, none, none⟩], []⟩

/-- The main loop of `predict_route_times` over the entries after the
anchor, accumulating output rows and the lookup call log. -/
def processEntries (lookup : String → String → Option ℚ) :
    LoopState → List ScheduleEntry → List ProjectionRecord × List (String × String)
  | _, [] => ([], [])
  | st, e :: rest =>
    let s := processEntry lookup st e
    let r := processEntries lookup s.state rest
    (s.records ++ r.1, s.calls ++ r.2)

/-- Model of `BusTimetableAnalyzer.predict_route_times`.  Returns `none`
when the input constraint is violated (empty route, or first entry
unserved — the Python code would raise while parsing the anchor).  The
first entry is the anchor, emitted verbatim with extra delay 0 and
predicted arrival equal to its scheduled time. -/
def predict_route_times (lookup : String → String → Option ℚ)
    (route : List ScheduleEntry) : Option (List ProjectionRecord) :=
  match route with
  | ⟨s0, some t0⟩ :: rest =>
    some (⟨s0, some t0, some 0, some (t0 : ℚ)⟩ ::
      (processEntries lookup ⟨s0, (t0 : ℚ), [some t0]⟩ rest).1)
  | _ => none

/-- The sequence of origin-destination travel-time lookups performed by a
run of `predict_route_times`, in call order. -/
def predictCalls (lookup : String → String → Option ℚ)
    (route : List ScheduleEntry) : Option (List (String × String)) :=
  match route with
  | ⟨s0, some t0⟩ :: rest =>
    some (processEntries lookup ⟨s0, (t0 : ℚ), [some t0]⟩ rest).2
  | _ => none

/-- The served entries of a route, as stop-and-scheduled-minutes pairs in
route order. -/
def servedPairs (route : List ScheduleEntry) : List (String × Nat) :=
  route.filterMap fun e => e.scheduled.map fun m => (e.stop, m)

/-- The lookup answers exactly the scheduled leg duration between every
pair of consecutive served stops of the given chain. -/
def chainLookup (lookup : String → String → Option ℚ) :
    List (String × Nat) → Prop
  | (a, ta) :: (b, tb) :: rest =>
    lookup a b = some ((tb : ℚ) - (ta : ℚ)) ∧ chainLookup lookup ((b, tb) :: rest)
  | _ => True

/-! Concrete fixtures: the scenario of spec section 8 (stops A 07:00, B
unserved, C 07:45), with an everywhere-50-minutes lookup, an
everywhere-failing lookup, and an exactly-on-schedule 45-minute lookup. -/

def wRoute : List ScheduleEntry := [⟨"A", some 420⟩, ⟨"B", none⟩, ⟨"C", some 465⟩]

def wLookup : String → String → Option ℚ := fun _ _ => some 50

def wFailLookup : String → String → Option ℚ := fun _ _ => none

def wRtLookup : String → String → Option ℚ := fun _ _ => some 45

def wSt : LoopState := ⟨"A", 420, [some 420]⟩

def wOut : List ProjectionRecord :=
  [⟨"A", some 420, some 0, some 420⟩,
   ⟨"B", none, none, none⟩,
   ⟨"C", some 465, some 5, some 470⟩]

def wRtOut : List ProjectionRecord :=
  [⟨"A", some 420, some 0, some 420⟩,
   ⟨"B", none, none, none⟩,
   ⟨"C", some 465, some 0, some 465⟩]

/-! Part 2: the TransXChange stop-sequence extraction of
`extract_stops.py`, over an abstract document holding exactly the XML
fields `extract_stops_from_xml` reads. -/

/-- A stop of the extracted sequence: CommonName and ATCO code. -/
structure Stop where
  name : String
  atco_code : String
  deriving DecidableEq, Repr

/-- A JourneyPatternTimingLink: the optional From and To StopPointRef
texts. -/
structure TimingLink where
  fromStop : Option String
  toStop : Option String
  deriving DecidableEq, Repr

/-- A JourneyPatternSection, found at root level by its id attribute. -/
structure JPSection where
  id : String
  links : List TimingLink
  deriving DecidableEq, Repr

/-- A JourneyPattern of a Service: its optional Direction text and its
ordered JourneyPatternSectionRef texts. -/
structure JourneyPattern where
  direction : Option String
  sectionRefs : List String
  deriving DecidableEq, Repr

/-- A Service: its LineName texts and its JourneyPatterns. -/
structure Service where
  lineNames : List String
  journeyPatterns : List JourneyPattern
  deriving DecidableEq, Repr

/-- The parts of a TransXChange document that `extract_stops_from_xml`
reads: the AnnotatedStopPointRef table (StopPointRef and CommonName, in
document order), the Services, and the root-level
JourneyPatternSections. -/
structure XmlDoc where
  stopPoints : List (String × String)
  services : List Service
  sections : List JPSection
  deriving DecidableEq, Repr

/-- Lookup in the stop-point table with Python-dict semantics: the last
binding of a key wins. -/
def dictLookup (table : List (String × String)) (k : String) : Option String :=
  (table.reverse.find? fun p => p.1 == k).map fun p => p.2

/-- Substring test, the model of Python's `in` on strings. -/
def containsSub (needle hay : String) : Bool :=
  decide (needle.toList <:+: hay.toList)

/-- The heuristic direction match: case-insensitive substring tests of the
free-text Direction element against "inbound"/"oxford" for inbound and
"outbound"/"london" for outbound. -/
def directionMatches (direction : String) (jp : JourneyPattern) : Bool :=
  match jp.direction with
  | none => false
  | some dt =>
    (direction == "inbound" &&
      (containsSub "inbound" dt.toLower || containsSub "oxford" dt.toLower)) ||
    (direction == "outbound" &&
      (containsSub "outbound" dt.toLower || containsSub "london" dt.toLower))

/-- The candidate StopPointRefs of one timing link: From first, then To,
each when present. -/
def linkRefs (l : TimingLink) : List String :=
  l.fromStop.toList ++ l.toStop.toList

/-- The candidate StopPointRefs of a journey pattern in traversal order:
each section reference in order, each root-level section carrying that id,
each of its timing links, From then To. -/
def resolveCandidates (doc : XmlDoc) (jp : JourneyPattern) : List String :=
  jp.sectionRefs.flatMap fun sid =>
    (doc.sections.filter fun sec => sec.id == sid).flatMap fun sec =>
      sec.links.flatMap linkRefs

/-- The membership-checked append of the inner loops: skip ids not in the
stop-point table, skip stops already collected, otherwise append. -/
def addStop (table : List (String × String)) (seq : List Stop) (sid : String) :
    List Stop :=
  match dictLookup table sid with
  | some nm => if ⟨nm, sid⟩ ∈ seq then seq else seq ++ [⟨nm, sid⟩]
  | none => seq

/-- The stop sequence a matched journey pattern yields. -/
def stopSequenceOf (doc : XmlDoc) (jp : JourneyPattern) : List Stop :=
  (resolveCandidates doc jp).foldl (addStop doc.stopPoints) []

/-- The journey-pattern loop: the first direction-matching pattern whose
stop sequence is non-empty is returned at once. -/
def jpLoop (doc : XmlDoc) (direction : String) : List JourneyPattern → List Stop
  | [] => []
  | jp :: rest =>
    if directionMatches direction jp then
      if (stopSequenceOf doc jp).isEmpty then jpLoop doc direction rest
      else stopSequenceOf doc jp
    else jpLoop doc direction rest

/-- The LineName loop of one Service: each line text equal to the route
name triggers the journey-pattern loop. -/
def lineLoop (doc : XmlDoc) (direction route_name : String)
    (jps : List JourneyPattern) : List String → List Stop
  | [] => []
  | line :: rest =>
    if line == route_name then
      if (jpLoop doc direction jps).isEmpty then
        lineLoop doc direction route_name jps rest
      else jpLoop doc direction jps
    else lineLoop doc direction route_name jps rest

/-- The Service loop. -/
def serviceLoop (doc : XmlDoc) (direction route_name : String) :
    List Service → List Stop
  | [] => []
  | svc :: rest =>
    if (lineLoop doc direction route_name svc.journeyPatterns svc.lineNames).isEmpty
    then serviceLoop doc direction route_name rest
    else lineLoop doc direction route_name svc.journeyPatterns svc.lineNames

/-- Model of `extract_stops_from_xml` (file loading aside): build the
stop-point table, then scan services, matching line names and directions,
returning the first non-empty stop sequence found. -/
def extract_stops_from_xml (doc : XmlDoc) (route_name direction : String) :
    List Stop :=
  serviceLoop doc direction route_name doc.services

/-- Keep the first occurrence of each element, dropping later duplicates
(the specification-side description of the seen-check). -/
def dedupFirst {α : Type} [DecidableEq α] : List α → List α
  | [] => []
  | a :: l => a :: dedupFirst (l.filter fun b => b ≠ a)
termination_by l => l.length
decreasing_by
  exact Nat.lt_succ_of_le (List.length_filter_le _ _)

/-- Insert at the end unless already present (the specification-side view
of one `addStop` step on an id the table resolves). -/
def insertNew {α : Type} [DecidableEq α] (seq : List α) (a : α) : List α :=
  if a ∈ seq then seq else seq ++ [a]

/-- The candidates of a journey pattern that the stop-point table resolves,
as stops, in traversal order, duplicates included. -/
def resolvedStops (doc : XmlDoc) (jp : JourneyPattern) : List Stop :=
  (resolveCandidates doc jp).filterMap fun sid =>
    (dictLookup doc.stopPoints sid).map fun nm => ⟨nm, sid⟩

/-! Basic equations for the loop body and the loop. -/

theorem processEntry_unserved (lookup : String → String → Option ℚ)
    (st : LoopState) (e : ScheduleEntry) (hs : e.scheduled = none) :
    processEntry lookup st e =
      ⟨⟨st.lastUsedStop, st.lastUsedTime, st.prevSched ++ [none]⟩,
        [⟨e.stop, none, none, none⟩], []⟩ := by
  simp [processEntry, hs]

theorem processEntry_fail (lookup : String → String → Option ℚ)
    (st : LoopState) (e : ScheduleEntry) (m : Nat) (hs : e.scheduled = some m)
    (hl : lookup st.lastUsedStop e.stop = none) :
    processEntry lookup st e =
      ⟨⟨st.lastUsedStop, st.lastUsedTime, st.prevSched ++ [some m]⟩, [],
        [(st.lastUsedStop, e.stop)]⟩ := by
  simp [processEntry, hs, hl]

theorem processEntry_success (lookup : String → String → Option ℚ)
    (st : LoopState) (e : ScheduleEntry) (m : Nat) (tr : ℚ)
    (hs : e.scheduled = some m) (hl : lookup st.lastUsedStop e.stop = some tr) :
    processEntry lookup st e =
      ⟨⟨e.stop, max (st.lastUsedTime + tr) (m : ℚ), st.prevSched ++ [some m]⟩,
        [⟨e.stop, some m,
          some (pyRound1 (extraDelayCalc st.prevSched st.lastUsedTime
            (max (st.lastUsedTime + tr) (m : ℚ)) m)),
          some (max (st.lastUsedTime + tr) (m : ℚ))⟩],
        [(st.lastUsedStop, e.stop)]⟩ := by
  simp [processEntry, hs, hl]

theorem processEntries_nil (lookup : String → String → Option ℚ) (st : LoopState) :
    processEntries lookup st [] = ([], []) := rfl

theorem processEntries_cons (lookup : String → String → Option ℚ)
    (st : LoopState) (e : ScheduleEntry) (rest : List ScheduleEntry) :
    processEntries lookup st (e :: rest) =
      ((processEntry lookup st e).records ++
        (processEntries lookup (processEntry lookup st e).state rest).1,
       (processEntry lookup st e).calls ++
        (processEntries lookup (processEntry lookup st e).state rest).2) := rfl

/-! Sign facts about the rounding and the extra-delay computation. -/

theorem roundHalfEven_nonneg (q : ℚ) (h : 0 ≤ q) : 0 ≤ roundHalfEven q := by
  have hf : (0 : ℤ) ≤ ⌊q⌋ := Int.floor_nonneg.mpr h
  unfold roundHalfEven
  split
  · exact hf
  split
  · omega
  split <;> omega

theorem pyRound1_nonneg (q : ℚ) (h : 0 ≤ q) : 0 ≤ pyRound1 q := by
  have h10 : 0 ≤ roundHalfEven (10 * q) := roundHalfEven_nonneg _ (by positivity)
  unfold pyRound1
  have : (0 : ℚ) ≤ (roundHalfEven (10 * q) : ℚ) := by exact_mod_cast h10
  positivity

theorem pyRound1_zero : pyRound1 0 = 0 := by
  norm_num [pyRound1, roundHalfEven]

theorem extraDelayCalc_nonneg (prev : List (Option Nat)) (lastTime actual : ℚ)
    (m : Nat) : 0 ≤ extraDelayCalc prev lastTime actual m := by
  unfold extraDelayCalc
  split
  · exact le_max_left 0 _
  · exact le_refl 0

/-- Shape of any successful run: the route must start with a served anchor,
the output starts with the verbatim anchor record, and the rest is the
loop's output from the initial state. -/
theorem predict_eq_some (lookup : String → String → Option ℚ)
    (route : List ScheduleEntry) (out : List ProjectionRecord)
    (h : predict_route_times lookup route = some out) :
    ∃ s0 t0 rest, route = ⟨s0, some t0⟩ :: rest ∧
      out = ⟨s0, some t0, some 0, some (t0 : ℚ)⟩ ::
        (processEntries lookup ⟨s0, (t0 : ℚ), [some t0]⟩ rest).1 := by
  unfold predict_route_times at h
  split at h
  · next s0 t0 rest => exact ⟨s0, t0, rest, rfl, (Option.some.inj h).symm⟩
  · exact absurd h (by simp)

/-- Shape of the call log of any successful run. -/
theorem predictCalls_eq_some (lookup : String → String → Option ℚ)
    (route : List ScheduleEntry) (calls : List (String × String))
    (h : predictCalls lookup route = some calls) :
    ∃ s0 t0 rest, route = ⟨s0, some t0⟩ :: rest ∧
      calls = (processEntries lookup ⟨s0, (t0 : ℚ), [some t0]⟩ rest).2 := by
  unfold predictCalls at h
  split at h
  · next s0 t0 rest => exact ⟨s0, t0, rest, rfl, (Option.some.inj h).symm⟩
  · exact absurd h (by simp)

/-- Invariant over all rows emitted by the loop: a served row's predicted
arrival exists and is at least its scheduled time, and any emitted extra
delay is non-negative. -/
theorem records_inv (lookup : String → String → Option ℚ)
    (l : List ScheduleEntry) :
    ∀ st, ∀ r ∈ (processEntries lookup st l).1,
      (∀ m, r.timetable = some m →
        ∃ p, r.predictedArrival = some p ∧ (m : ℚ) ≤ p) ∧
      ∀ q, r.extraTraffic = some q → 0 ≤ q := by
  induction l with
  | nil => intro st r hr; simp [processEntries_nil] at hr
  | cons e rest ih =>
    intro st r hr
    rw [processEntries_cons] at hr
    rcases List.mem_append.mp hr with hr | hr
    · rcases he : e.scheduled with _ | m
      · rw [processEntry_unserved lookup st e he] at hr
        rcases List.mem_singleton.mp hr with rfl
        exact ⟨fun m hm => by simp at hm, fun q hq => by simp at hq⟩
      · rcases hl : lookup st.lastUsedStop e.stop with _ | tr
        · rw [processEntry_fail lookup st e m he hl] at hr
          simp at hr
        · rw [processEntry_success lookup st e m tr he hl] at hr
          rcases List.mem_singleton.mp hr with rfl
          refine ⟨fun m' hm' => ?_, fun q hq => ?_⟩
          · obtain rfl : m = m' := by simpa using hm'
            exact ⟨_, rfl, le_max_right _ _⟩
          · obtain rfl : pyRound1 (extraDelayCalc st.prevSched st.lastUsedTime
                (max (st.lastUsedTime + tr) (m : ℚ)) m) = q := by simpa using hq
            exact pyRound1_nonneg _ (extraDelayCalc_nonneg _ _ _ _)
    · exact ih _ r hr

theorem wRun : predict_route_times wLookup wRoute = some wOut := by
  simp [predict_route_times, wLookup, wRoute, wOut, processEntries, processEntry,
    extraDelayCalc, find_last_scheduled, pyRound1, roundHalfEven]
  norm_num

/-- C1: for every served non-anchor entry whose lookup succeeds, the
emitted row's predicted arrival equals
`max (lastServedMinutes + travelMinutes) scheduledMinutes`; consequently,
in any successful run, no served row's predicted arrival is below its
scheduled time. -/
theorem served_predicted_clamped (lookup : String → String → Option ℚ)
    (st : LoopState) (e : ScheduleEntry) (m : Nat) (tr : ℚ)
    (hs : e.scheduled = some m) (hl : lookup st.lastUsedStop e.stop = some tr) :
    (∃ rec, (processEntry lookup st e).records = [rec] ∧
      rec.timetable = some m ∧
      rec.predictedArrival = some (max (st.lastUsedTime + tr) (m : ℚ))) ∧
    ∀ route out r (m' : Nat), predict_route_times lookup route = some out →
      r ∈ out → r.timetable = some m' →
      ∃ p, r.predictedArrival = some p ∧ (m' : ℚ) ≤ p := by
  constructor
  · rw [processEntry_success lookup st e m tr hs hl]
    exact ⟨_, rfl, rfl, rfl⟩
  · intro route out r m' hro hr ht
    obtain ⟨s0, t0, rest, rfl, rfl⟩ := predict_eq_some lookup route out hro
    rcases List.mem_cons.mp hr with rfl | hr
    · obtain rfl : t0 = m' := by simpa using ht
      exact ⟨(t0 : ℚ), rfl, le_refl _⟩
    · exact (records_inv lookup rest _ r hr).1 m' ht

theorem served_predicted_clamped_witness :
    (∃ rec, (processEntry wLookup wSt ⟨"C", some 465⟩).records = [rec] ∧
      rec.timetable = some 465 ∧
      rec.predictedArrival = some (max (wSt.lastUsedTime + 50) ((465 : Nat) : ℚ))) ∧
    ∀ route out r (m' : Nat), predict_route_times wLookup route = some out →
      r ∈ out → r.timetable = some m' →
      ∃ p, r.predictedArrival = some p ∧ (m' : ℚ) ≤ p :=
  served_predicted_clamped wLookup wSt ⟨"C", some 465⟩ 465 50 rfl rfl

/-- C2: for every served non-anchor entry with a successful lookup, the
emitted extra delay is the (rounded) value
`max 0 ((clampedArrival - lastServedMinutes) - (scheduled - priorServedScheduled))`,
where the prior served scheduled time comes from the backward scan over the
processed prefix, and is the (rounded) `0` when that scan finds nothing;
consequently every extra delay emitted in any successful run is
non-negative. -/
theorem served_extra_delay_formula (lookup : String → String → Option ℚ)
    (st : LoopState) (e : ScheduleEntry) (m : Nat) (tr : ℚ)
    (hs : e.scheduled = some m) (hl : lookup st.lastUsedStop e.stop = some tr) :
    ((∀ pm, find_last_scheduled st.prevSched = some pm →
        (processEntry lookup st e).records.map (fun r => r.extraTraffic) =
          [some (pyRound1 (max 0
            ((max (st.lastUsedTime + tr) (m : ℚ) - st.lastUsedTime) -
              ((m : ℚ) - (pm : ℚ)))))]) ∧
      (find_last_scheduled st.prevSched = none →
        (processEntry lookup st e).records.map (fun r => r.extraTraffic) =
          [some (pyRound1 0)])) ∧
    ∀ route out r (q : ℚ), predict_route_times lookup route = some out →
      r ∈ out → r.extraTraffic = some q → 0 ≤ q := by
  refine ⟨⟨fun pm hpm => ?_, fun hpm => ?_⟩, ?_⟩
  · rw [processEntry_success lookup st e m tr hs hl]
    simp [extraDelayCalc, hpm]
  · rw [processEntry_success lookup st e m tr hs hl]
    simp [extraDelayCalc, hpm]
  · intro route out r q hro hr hq
    obtain ⟨s0, t0, rest, rfl, rfl⟩ := predict_eq_some lookup route out hro
    rcases List.mem_cons.mp hr with rfl | hr
    · obtain rfl : (0 : ℚ) = q := by simpa using hq
      exact le_refl 0
    · exact (records_inv lookup rest _ r hr).2 q hq

theorem served_extra_delay_formula_witness :
    ((∀ pm, find_last_scheduled wSt.prevSched = some pm →
        (processEntry wLookup wSt ⟨"C", some 465⟩).records.map (fun r => r.extraTraffic) =
          [some (pyRound1 (max 0
            ((max (wSt.lastUsedTime + 50) ((465 : Nat) : ℚ) - wSt.lastUsedTime) -
              (((465 : Nat) : ℚ) - (pm : ℚ)))))]) ∧
      (find_last_scheduled wSt.prevSched = none →
        (processEntry wLookup wSt ⟨"C", some 465⟩).records.map (fun r => r.extraTraffic) =
          [some (pyRound1 0)])) ∧
    ∀ route out r (q : ℚ), predict_route_times wLookup route = some out →
      r ∈ out → r.extraTraffic = some q → 0 ≤ q :=
  served_extra_delay_formula wLookup wSt ⟨"C", some 465⟩ 465 50 rfl rfl

/-- C3: when a served entry's lookup fails, no row is emitted for it, the
run continues, and `last_used_stop`/`last_used_time` after the entry equal
their values before it, so the next served stop's travel is computed from
the same prior state. -/
theorem lookup_failure_skips (lookup : String → String → Option ℚ)
    (st : LoopState) (e : ScheduleEntry) (m : Nat)
    (hs : e.scheduled = some m) (hl : lookup st.lastUsedStop e.stop = none) :
    (processEntry lookup st e).records = [] ∧
    (processEntry lookup st e).state.lastUsedStop = st.lastUsedStop ∧
    (processEntry lookup st e).state.lastUsedTime = st.lastUsedTime ∧
    ∀ rest, (processEntries lookup st (e :: rest)).1 =
      (processEntries lookup
        ⟨st.lastUsedStop, st.lastUsedTime, st.prevSched ++ [some m]⟩ rest).1 := by
  have h := processEntry_fail lookup st e m hs hl
  refine ⟨by rw [h], by rw [h], by rw [h], fun rest => ?_⟩
  rw [processEntries_cons, h]
  simp

theorem lookup_failure_skips_witness :
    (processEntry wFailLookup wSt ⟨"C", some 465⟩).records = [] ∧
    (processEntry wFailLookup wSt ⟨"C", some 465⟩).state.lastUsedStop = wSt.lastUsedStop ∧
    (processEntry wFailLookup wSt ⟨"C", some 465⟩).state.lastUsedTime = wSt.lastUsedTime ∧
    ∀ rest, (processEntries wFailLookup wSt (⟨"C", some 465⟩ :: rest)).1 =
      (processEntries wFailLookup
        ⟨wSt.lastUsedStop, wSt.lastUsedTime, wSt.prevSched ++ [some 465]⟩ rest).1 :=
  lookup_failure_skips wFailLookup wSt ⟨"C", some 465⟩ 465 rfl rfl

/-- C4: in any successful run, the first output row is the anchor emitted
verbatim — extra delay 0 and predicted arrival equal to its scheduled
time — whatever the lookup does. -/
theorem anchor_verbatim (lookup : String → String → Option ℚ)
    (route : List ScheduleEntry) (out : List ProjectionRecord)
    (h : predict_route_times lookup route = some out) :
    ∃ e rest t0, route = e :: rest ∧ e.scheduled = some t0 ∧
      out.head? = some ⟨e.stop, some t0, some 0, some (t0 : ℚ)⟩ := by
  obtain ⟨s0, t0, rest, rfl, rfl⟩ := predict_eq_some lookup route out h
  exact ⟨⟨s0, some t0⟩, rest, t0, rfl, rfl, rfl⟩

theorem anchor_verbatim_witness :
    ∃ e rest t0, wRoute = e :: rest ∧ e.scheduled = some t0 ∧
      wOut.head? = some ⟨e.stop, some t0, some 0, some (t0 : ℚ)⟩ :=
  anchor_verbatim wLookup wRoute wOut wRun

/-- C5: an unserved entry emits exactly one row, all of whose schedule,
extra-delay and predicted-arrival fields are the sentinel; it triggers no
travel-time lookup and leaves `last_used_stop`/`last_used_time` unchanged. -/
theorem unserved_sentinel (lookup : String → String → Option ℚ)
    (st : LoopState) (e : ScheduleEntry) (hs : e.scheduled = none) :
    (processEntry lookup st e).records = [⟨e.stop, none, none, none⟩] ∧
    (processEntry lookup st e).calls = [] ∧
    (processEntry lookup st e).state.lastUsedStop = st.lastUsedStop ∧
    (processEntry lookup st e).state.lastUsedTime = st.lastUsedTime := by
  have h := processEntry_unserved lookup st e hs
  exact ⟨by rw [h], by rw [h], by rw [h], by rw [h]⟩

theorem find_last_scheduled_append_none (l : List (Option Nat)) :
    find_last_scheduled (l ++ [none]) = find_last_scheduled l := by
  induction l with
  | nil => rfl
  | cons t rest ih => simp [find_last_scheduled, ih]

theorem find_last_scheduled_append_some (l : List (Option Nat)) (m : Nat) :
    find_last_scheduled (l ++ [some m]) = some m := by
  induction l with
  | nil => rfl
  | cons t rest ih => simp [find_last_scheduled, ih]

theorem servedPairs_cons_unserved (e : ScheduleEntry) (rest : List ScheduleEntry)
    (he : e.scheduled = none) :
    servedPairs (e :: rest) = servedPairs rest := by
  simp [servedPairs, he]

theorem servedPairs_cons_served (e : ScheduleEntry) (rest : List ScheduleEntry)
    (m : Nat) (he : e.scheduled = some m) :
    servedPairs (e :: rest) = (e.stop, m) :: servedPairs rest := by
  simp [servedPairs, he]

theorem roundtrip_aux (lookup : String → String → Option ℚ)
    (l : List ScheduleEntry) :
    ∀ (a : String) (ta : Nat) (prev : List (Option Nat)),
      find_last_scheduled prev = some ta →
      chainLookup lookup ((a, ta) :: servedPairs l) →
      ∀ r ∈ (processEntries lookup ⟨a, (ta : ℚ), prev⟩ l).1,
        ∀ m, r.timetable = some m →
          r.extraTraffic = some 0 ∧ r.predictedArrival = some (m : ℚ) := by
  induction l with
  | nil => intro a ta prev _ _ r hr; simp [processEntries_nil] at hr
  | cons e rest ih =>
    intro a ta prev hscan hch r hr
    rcases he : e.scheduled with _ | tb
    · rw [processEntries_cons,
        processEntry_unserved lookup ⟨a, (ta : ℚ), prev⟩ e he] at hr
      rcases List.mem_append.mp hr with hr | hr
      · rcases List.mem_singleton.mp hr with rfl
        intro m hm; simp at hm
      · rw [servedPairs_cons_unserved e rest he] at hch
        have hscan' : find_last_scheduled (prev ++ [none]) = some ta := by
          rw [find_last_scheduled_append_none]; exact hscan
        exact ih a ta (prev ++ [none]) hscan' hch r hr
    · rw [servedPairs_cons_served e rest tb he] at hch
      obtain ⟨hlk, hch'⟩ := hch
      rw [processEntries_cons,
        processEntry_success lookup ⟨a, (ta : ℚ), prev⟩ e tb _ he hlk] at hr
      have hact : max (((ta : ℚ)) + ((tb : ℚ) - (ta : ℚ))) ((tb : ℚ)) = (tb : ℚ) := by
        have hh : ((ta : ℚ)) + ((tb : ℚ) - (ta : ℚ)) = (tb : ℚ) := by ring
        rw [hh, max_self]
      have hex : extraDelayCalc prev (ta : ℚ) ((tb : ℚ)) tb = 0 := by
        unfold extraDelayCalc
        rw [hscan]
        simp
      rcases List.mem_append.mp hr with hr | hr
      · rcases List.mem_singleton.mp hr with rfl
        intro m hm
        obtain rfl : tb = m := by simpa using hm
        constructor
        · show some (pyRound1 (extraDelayCalc prev (ta : ℚ)
            (max ((ta : ℚ) + ((tb : ℚ) - (ta : ℚ))) ((tb : ℚ))) tb)) = some 0
          rw [hact, hex, pyRound1_zero]
        · show some (max ((ta : ℚ) + ((tb : ℚ) - (ta : ℚ))) ((tb : ℚ))) = some ((tb : ℚ))
          rw [hact]
      · have hscan' : find_last_scheduled (prev ++ [some tb]) = some tb :=
          find_last_scheduled_append_some prev tb
        have hmem : r ∈ (processEntries lookup ⟨e.stop, (tb : ℚ), prev ++ [some tb]⟩ rest).1 := by
          have hst : (⟨e.stop, max ((ta : ℚ) + ((tb : ℚ) - (ta : ℚ))) ((tb : ℚ)),
              prev ++ [some tb]⟩ : LoopState) =
              ⟨e.stop, (tb : ℚ), prev ++ [some tb]⟩ := by rw [hact]
          exact hst ▸ hr
        exact ih e.stop tb (prev ++ [some tb]) hscan' hch' r hmem

/-- C6: if every lookup between consecutive served stops answers exactly
the scheduled leg duration, then every served row of the output has extra
delay exactly 0 and predicted arrival equal to its scheduled time. -/
theorem roundtrip_zero_delay (lookup : String → String → Option ℚ)
    (route : List ScheduleEntry) (out : List ProjectionRecord)
    (h : predict_route_times lookup route = some out)
    (hch : chainLookup lookup (servedPairs route)) :
    ∀ r ∈ out, ∀ m, r.timetable = some m →
      r.extraTraffic = some 0 ∧ r.predictedArrival = some (m : ℚ) := by
  obtain ⟨s0, t0, rest, rfl, rfl⟩ := predict_eq_some lookup route out h
  intro r hr m hm
  rcases List.mem_cons.mp hr with rfl | hr
  · obtain rfl : t0 = m := by simpa using hm
    exact ⟨rfl, rfl⟩
  · rw [servedPairs_cons_served ⟨s0, some t0⟩ rest t0 rfl] at hch
    exact roundtrip_aux lookup rest s0 t0 [some t0] rfl hch r hr m hm

theorem wRtRun : predict_route_times wRtLookup wRoute = some wRtOut := by
  simp [predict_route_times, wRtLookup, wRoute, wRtOut, processEntries, processEntry,
    extraDelayCalc, find_last_scheduled, pyRound1, roundHalfEven]
  norm_num

theorem roundtrip_zero_delay_witness :
    (⟨"C", some 465, some 0, some 465⟩ : ProjectionRecord).extraTraffic = some 0 ∧
    (⟨"C", some 465, some 0, some 465⟩ : ProjectionRecord).predictedArrival =
      some ((465 : Nat) : ℚ) :=
  roundtrip_zero_delay wRtLookup wRoute wRtOut wRtRun
    (by constructor
        · show wRtLookup "A" "C" = some ((465 : ℚ) - (420 : ℚ))
          simp [wRtLookup]; norm_num
        · trivial)
    ⟨"C", some 465, some 0, some 465⟩ (by simp [wRtOut]) 465 rfl

theorem unserved_sentinel_witness :
    (processEntry wLookup wSt ⟨"B", none⟩).records = [⟨"B", none, none, none⟩] ∧
    (processEntry wLookup wSt ⟨"B", none⟩).calls = [] ∧
    (processEntry wLookup wSt ⟨"B", none⟩).state.lastUsedStop = wSt.lastUsedStop ∧
    (processEntry wLookup wSt ⟨"B", none⟩).state.lastUsedTime = wSt.lastUsedTime :=
  unserved_sentinel wLookup wSt ⟨"B", none⟩ rfl

/-! Counting and ordering facts about the loop's output and call log. -/

theorem stops_sublist (lookup : String → String → Option ℚ) (l : List ScheduleEntry) :
    ∀ st, ((processEntries lookup st l).1.map fun r => r.stop).Sublist
      (l.map fun e => e.stop) := by
  induction l with
  | nil => intro st; simp [processEntries_nil]
  | cons e rest ih =>
    intro st
    rw [processEntries_cons]
    rcases he : e.scheduled with _ | m
    · rw [processEntry_unserved lookup st e he]
      simpa using List.Sublist.cons₂ e.stop (ih _)
    · rcases hl : lookup st.lastUsedStop e.stop with _ | tr
      · rw [processEntry_fail lookup st e m he hl]
        simpa using List.Sublist.cons e.stop (ih _)
      · rw [processEntry_success lookup st e m tr he hl]
        simpa using List.Sublist.cons₂ e.stop (ih _)

theorem count_drop (lookup : String → String → Option ℚ) (l : List ScheduleEntry) :
    ∀ st, (processEntries lookup st l).1.length +
      (processEntries lookup st l).2.countP (fun c => (lookup c.1 c.2).isNone) =
      l.length := by
  induction l with
  | nil => intro st; simp [processEntries_nil]
  | cons e rest ih =>
    intro st
    rw [processEntries_cons]
    rcases he : e.scheduled with _ | m
    · rw [processEntry_unserved lookup st e he]
      have h := ih ⟨st.lastUsedStop, st.lastUsedTime, st.prevSched ++ [none]⟩
      simp only [List.singleton_append, List.nil_append, List.length_cons,
        List.length_append]
      omega
    · rcases hl : lookup st.lastUsedStop e.stop with _ | tr
      · rw [processEntry_fail lookup st e m he hl]
        have h := ih ⟨st.lastUsedStop, st.lastUsedTime, st.prevSched ++ [some m]⟩
        simp only [List.singleton_append, List.nil_append, List.length_cons,
          List.countP_cons, hl, Option.isNone_none, List.length_append, if_true]
        omega
      · rw [processEntry_success lookup st e m tr he hl]
        have h := ih ⟨e.stop, max (st.lastUsedTime + tr) (m : ℚ),
          st.prevSched ++ [some m]⟩
        simp only [List.singleton_append, List.length_cons, List.countP_cons, hl,
          Option.isNone_some, Bool.false_eq_true, if_false, List.length_append]
        omega

theorem calls_dest (lookup : String → String → Option ℚ) (l : List ScheduleEntry) :
    ∀ st, (processEntries lookup st l).2.map Prod.snd =
      l.filterMap fun e => e.scheduled.map fun _ => e.stop := by
  induction l with
  | nil => intro st; simp [processEntries_nil]
  | cons e rest ih =>
    intro st
    rw [processEntries_cons]
    rcases he : e.scheduled with _ | m
    · rw [processEntry_unserved lookup st e he]
      simp [List.filterMap_cons, he, ih _]
    · rcases hl : lookup st.lastUsedStop e.stop with _ | tr
      · rw [processEntry_fail lookup st e m he hl]
        simp [List.filterMap_cons, he, ih _]
      · rw [processEntry_success lookup st e m tr he hl]
        simp [List.filterMap_cons, he, ih _]

theorem chain_mono (lookup : String → String → Option ℚ)
    (hnn : ∀ a b t, lookup a b = some t → 0 ≤ t) (l : List ScheduleEntry) :
    ∀ st, List.Chain' (· ≤ ·) (st.lastUsedTime ::
      ((processEntries lookup st l).1.filterMap fun r => r.predictedArrival)) := by
  induction l with
  | nil => intro st; simp [processEntries_nil]
  | cons e rest ih =>
    intro st
    rw [processEntries_cons]
    rcases he : e.scheduled with _ | m
    · rw [processEntry_unserved lookup st e he]
      simpa using ih ⟨st.lastUsedStop, st.lastUsedTime, st.prevSched ++ [none]⟩
    · rcases hl : lookup st.lastUsedStop e.stop with _ | tr
      · rw [processEntry_fail lookup st e m he hl]
        simpa using ih ⟨st.lastUsedStop, st.lastUsedTime, st.prevSched ++ [some m]⟩
      · rw [processEntry_success lookup st e m tr he hl]
        have h1 : st.lastUsedTime ≤ max (st.lastUsedTime + tr) (m : ℚ) :=
          le_trans (le_add_of_nonneg_right (hnn _ _ _ hl)) (le_max_left _ _)
        have h2 := ih ⟨e.stop, max (st.lastUsedTime + tr) (m : ℚ),
          st.prevSched ++ [some m]⟩
        simp only [List.singleton_append, List.filterMap_cons]
        exact List.chain'_cons.mpr ⟨h1, h2⟩

theorem wCallsRun : predictCalls wLookup wRoute = some [("A", "C")] := by
  simp [predictCalls, wLookup, wRoute, processEntries, processEntry]

/-- C7: in any successful run the output stops are an ordered sublist of
the input stops; the output length plus the number of failed lookups is
the input length; in particular, when every lookup succeeds the output has
exactly one row per input entry. -/
theorem output_full_minus_dropped (lookup : String → String → Option ℚ)
    (route : List ScheduleEntry) (out : List ProjectionRecord)
    (calls : List (String × String))
    (h : predict_route_times lookup route = some out)
    (hc : predictCalls lookup route = some calls) :
    ((out.map fun r => r.stop).Sublist (route.map fun e => e.stop)) ∧
    out.length + calls.countP (fun c => (lookup c.1 c.2).isNone) = route.length ∧
    ((∀ a b, (lookup a b).isSome) → out.length = route.length) := by
  obtain ⟨s0, t0, rest, rfl, rfl⟩ := predict_eq_some lookup route out h
  obtain rfl : calls = (processEntries lookup ⟨s0, (t0 : ℚ), [some t0]⟩ rest).2 := by
    have h2 : predictCalls lookup (⟨s0, some t0⟩ :: rest) =
        some (processEntries lookup ⟨s0, (t0 : ℚ), [some t0]⟩ rest).2 := rfl
    rw [h2] at hc
    exact (Option.some.inj hc).symm
  have hcd := count_drop lookup rest ⟨s0, (t0 : ℚ), [some t0]⟩
  refine ⟨?_, ?_, ?_⟩
  · simp only [List.map_cons]
    exact List.Sublist.cons₂ s0 (stops_sublist lookup rest _)
  · simp only [List.length_cons]
    omega
  · intro htot
    have hz : (processEntries lookup ⟨s0, (t0 : ℚ), [some t0]⟩ rest).2.countP
        (fun c => (lookup c.1 c.2).isNone) = 0 := by
      apply List.countP_eq_zero.mpr
      intro c _
      rcases hcase : lookup c.1 c.2 with _ | t
      · have := htot c.1 c.2
        rw [hcase] at this
        simp at this
      · simp [hcase]
    simp only [List.length_cons]
    omega

theorem output_full_minus_dropped_witness :
    ((wOut.map fun r => r.stop).Sublist (wRoute.map fun e => e.stop)) ∧
    wOut.length + ([("A", "C")] : List (String × String)).countP
      (fun c => (wLookup c.1 c.2).isNone) = wRoute.length ∧
    ((∀ a b, (wLookup a b).isSome) → wOut.length = wRoute.length) :=
  output_full_minus_dropped wLookup wRoute wOut [("A", "C")] wRun wCallsRun

/-- C8 (counterexample to the claim as stated): on a single-entry route the
anchor is a served stop, yet no travel-time lookup is performed at all, so
the lookup is not invoked exactly once per served stop. -/
theorem calls_not_once_per_served_stop :
    ∃ calls, predictCalls (fun _ _ => some (1 : ℚ)) [⟨"A", some 420⟩] = some calls ∧
      calls.length ≠
        ([(⟨"A", some 420⟩ : ScheduleEntry)].countP fun e => e.scheduled.isSome) :=
  ⟨[], rfl, by decide⟩

/-- C8 (amended): a run's travel-time lookups are exactly one per served
non-anchor entry, in route order, with that entry's stop as the
destination; unserved entries trigger no lookup and no entry's lookup is
repeated. -/
theorem calls_once_per_served_nonanchor (lookup : String → String → Option ℚ)
    (route : List ScheduleEntry) (calls : List (String × String))
    (hc : predictCalls lookup route = some calls) :
    calls.map Prod.snd =
      (route.drop 1).filterMap fun e => e.scheduled.map fun _ => e.stop := by
  obtain ⟨s0, t0, rest, rfl, rfl⟩ := predictCalls_eq_some lookup route calls hc
  simpa using calls_dest lookup rest ⟨s0, (t0 : ℚ), [some t0]⟩

theorem calls_once_per_served_nonanchor_witness :
    ([("A", "C")] : List (String × String)).map Prod.snd =
      (wRoute.drop 1).filterMap fun e => e.scheduled.map fun _ => e.stop :=
  calls_once_per_served_nonanchor wLookup wRoute [("A", "C")] wCallsRun

/-- C10: if every successful lookup returns a non-negative duration, then
one loop step never decreases `last_used_time`, and the predicted arrivals
of the emitted served rows, read in output order, form a non-decreasing
sequence. -/
theorem predicted_monotone (lookup : String → String → Option ℚ)
    (route : List ScheduleEntry) (out : List ProjectionRecord)
    (h : predict_route_times lookup route = some out)
    (hnn : ∀ a b t, lookup a b = some t → 0 ≤ t) :
    (∀ st e, st.lastUsedTime ≤ (processEntry lookup st e).state.lastUsedTime) ∧
    List.Chain' (· ≤ ·) (out.filterMap fun r => r.predictedArrival) := by
  constructor
  · intro st e
    rcases he : e.scheduled with _ | m
    · rw [processEntry_unserved lookup st e he]
    · rcases hl : lookup st.lastUsedStop e.stop with _ | tr
      · rw [processEntry_fail lookup st e m he hl]
      · rw [processEntry_success lookup st e m tr he hl]
        exact le_trans (le_add_of_nonneg_right (hnn _ _ _ hl)) (le_max_left _ _)
  · obtain ⟨s0, t0, rest, rfl, rfl⟩ := predict_eq_some lookup route out h
    simpa using chain_mono lookup hnn rest ⟨s0, (t0 : ℚ), [some t0]⟩

theorem predicted_monotone_witness :
    (∀ st e, st.lastUsedTime ≤ (processEntry wLookup st e).state.lastUsedTime) ∧
    List.Chain' (· ≤ ·) (wOut.filterMap fun r => r.predictedArrival) :=
  predicted_monotone wLookup wRoute wOut wRun
    (by intro a b t ht
        obtain rfl : (50 : ℚ) = t := Option.some.inj ht
        norm_num)

/-! Properties of the stop-sequence extraction. -/

theorem foldl_addStop (table : List (String × String)) (cands : List String) :
    ∀ acc, cands.foldl (addStop table) acc =
      (cands.filterMap fun sid =>
        (dictLookup table sid).map fun nm => (⟨nm, sid⟩ : Stop)).foldl insertNew acc := by
  induction cands with
  | nil => intro acc; simp
  | cons c rest ih =>
    intro acc
    rcases hd : dictLookup table c with _ | nm
    · rw [List.foldl_cons, List.filterMap_cons_none (by simp [hd])]
      rw [show addStop table acc c = acc from by simp [addStop, hd]]
      exact ih acc
    · have hstep : (c :: rest).filterMap
          (fun sid => (dictLookup table sid).map fun nm => (⟨nm, sid⟩ : Stop)) =
          ⟨nm, c⟩ :: rest.filterMap
            (fun sid => (dictLookup table sid).map fun nm => (⟨nm, sid⟩ : Stop)) := by
        rw [List.filterMap_cons]
        simp [hd]
      rw [List.foldl_cons, hstep, List.foldl_cons]
      rw [show addStop table acc c = insertNew acc ⟨nm, c⟩ from by
        simp [addStop, insertNew, hd]]
      exact ih _

theorem foldl_insertNew {α : Type} [DecidableEq α] (l : List α) :
    ∀ acc, l.foldl insertNew acc = acc ++ dedupFirst (l.filter fun b => b ∉ acc) := by
  induction l with
  | nil => intro acc; simp [dedupFirst]
  | cons a l ih =>
    intro acc
    by_cases ha : a ∈ acc
    · have hstep : insertNew acc a = acc := by simp [insertNew, ha]
      have hf : (a :: l).filter (fun b => b ∉ acc) = l.filter fun b => b ∉ acc := by
        simp [ha]
      rw [List.foldl_cons, hstep, ih acc, hf]
    · have hstep : insertNew acc a = acc ++ [a] := by simp [insertNew, ha]
      have hf : (a :: l).filter (fun b => b ∉ acc) =
          a :: l.filter fun b => b ∉ acc := by
        simp [ha]
      have hf2 : l.filter (fun b => b ∉ acc ++ [a]) =
          (l.filter fun b => b ∉ acc).filter fun b => b ≠ a := by
        rw [List.filter_filter]
        apply List.filter_congr
        intro b _
        simp [List.mem_append, not_or, and_comm]
      rw [List.foldl_cons, hstep, ih (acc ++ [a]), hf, hf2]
      simp [dedupFirst, List.append_assoc]

theorem dedupFirst_sublist {α : Type} [DecidableEq α] (l : List α) :
    (dedupFirst l).Sublist l := by
  induction l using dedupFirst.induct with
  | case1 => simp [dedupFirst]
  | case2 a l ih =>
    simp only [dedupFirst]
    exact List.Sublist.cons₂ a (ih.trans (List.filter_sublist l))

theorem dedupFirst_nodup {α : Type} [DecidableEq α] (l : List α) :
    (dedupFirst l).Nodup := by
  induction l using dedupFirst.induct with
  | case1 => simp [dedupFirst]
  | case2 a l ih =>
    simp only [dedupFirst]
    refine List.nodup_cons.mpr ⟨?_, ih⟩
    intro hmem
    have hm : a ∈ l.filter (fun b => b ≠ a) := (dedupFirst_sublist _).subset hmem
    have := List.mem_filter.mp hm
    simp at this

theorem stopSequenceOf_eq (doc : XmlDoc) (jp : JourneyPattern) :
    stopSequenceOf doc jp = dedupFirst (resolvedStops doc jp) := by
  unfold stopSequenceOf resolvedStops
  rw [foldl_addStop doc.stopPoints (resolveCandidates doc jp) [],
    foldl_insertNew]
  simp

theorem jpLoop_spec (doc : XmlDoc) (direction : String) :
    ∀ jps, jpLoop doc direction jps = [] ∨
      ∃ jp ∈ jps, directionMatches direction jp = true ∧
        jpLoop doc direction jps = stopSequenceOf doc jp := by
  intro jps
  induction jps with
  | nil => left; rfl
  | cons jp rest ih =>
    by_cases hm : directionMatches direction jp = true
    · by_cases hemp : (stopSequenceOf doc jp).isEmpty
      · have heq : jpLoop doc direction (jp :: rest) = jpLoop doc direction rest := by
          simp [jpLoop, hm, hemp]
        rcases ih with h | ⟨jp', hmem, hm', heq'⟩
        · left; rw [heq, h]
        · right; exact ⟨jp', List.mem_cons_of_mem _ hmem, hm', by rw [heq, heq']⟩
      · right
        refine ⟨jp, List.mem_cons_self _ _, hm, ?_⟩
        simp [jpLoop, hm, hemp]
    · have heq : jpLoop doc direction (jp :: rest) = jpLoop doc direction rest := by
        simp [jpLoop, hm]
      rcases ih with h | ⟨jp', hmem, hm', heq'⟩
      · left; rw [heq, h]
      · right; exact ⟨jp', List.mem_cons_of_mem _ hmem, hm', by rw [heq, heq']⟩

theorem lineLoop_spec (doc : XmlDoc) (direction route_name : String)
    (jps : List JourneyPattern) :
    ∀ lines, lineLoop doc direction route_name jps lines = [] ∨
      (route_name ∈ lines ∧
        lineLoop doc direction route_name jps lines = jpLoop doc direction jps) := by
  intro lines
  induction lines with
  | nil => left; rfl
  | cons line rest ih =>
    by_cases hl : (line == route_name) = true
    · by_cases hemp : (jpLoop doc direction jps).isEmpty
      · have heq : lineLoop doc direction route_name jps (line :: rest) =
            lineLoop doc direction route_name jps rest := by
          simp [lineLoop, hl, hemp]
        rcases ih with h | ⟨hmem, heq'⟩
        · left; rw [heq, h]
        · right; exact ⟨List.mem_cons_of_mem _ hmem, by rw [heq, heq']⟩
      · right
        refine ⟨?_, by simp [lineLoop, hl, hemp]⟩
        obtain rfl : line = route_name := eq_of_beq hl
        exact List.mem_cons_self _ _
    · have heq : lineLoop doc direction route_name jps (line :: rest) =
          lineLoop doc direction route_name jps rest := by
        simp [lineLoop, hl]
      rcases ih with h | ⟨hmem, heq'⟩
      · left; rw [heq, h]
      · right; exact ⟨List.mem_cons_of_mem _ hmem, by rw [heq, heq']⟩

theorem serviceLoop_spec (doc : XmlDoc) (direction route_name : String) :
    ∀ svcs, serviceLoop doc direction route_name svcs = [] ∨
      ∃ svc ∈ svcs, route_name ∈ svc.lineNames ∧
        ∃ jp ∈ svc.journeyPatterns, directionMatches direction jp = true ∧
          serviceLoop doc direction route_name svcs = stopSequenceOf doc jp := by
  intro svcs
  induction svcs with
  | nil => left; rfl
  | cons svc rest ih =>
    by_cases hemp :
      (lineLoop doc direction route_name svc.journeyPatterns svc.lineNames).isEmpty
    · have heq : serviceLoop doc direction route_name (svc :: rest) =
          serviceLoop doc direction route_name rest := by
        simp [serviceLoop, hemp]
      rcases ih with h | ⟨svc', hmem, hline, jp, hjmem, hm, heq'⟩
      · left; rw [heq, h]
      · right
        exact ⟨svc', List.mem_cons_of_mem _ hmem, hline, jp, hjmem, hm,
          by rw [heq, heq']⟩
    · have heq : serviceLoop doc direction route_name (svc :: rest) =
          lineLoop doc direction route_name svc.journeyPatterns svc.lineNames := by
        simp [serviceLoop, hemp]
      rcases lineLoop_spec doc direction route_name svc.journeyPatterns
        svc.lineNames with h | ⟨hline, heq2⟩
      · exact absurd (by simp [h]) hemp
      · rcases jpLoop_spec doc direction svc.journeyPatterns with h2 | ⟨jp, hjmem, hm, heq3⟩
        · exact absurd (by simp [heq2, h2]) hemp
        · right
          exact ⟨svc, List.mem_cons_self _ _, hline, jp, hjmem, hm,
            by rw [heq, heq2, heq3]⟩

/-- C9: for every document, route name and direction, the extracted stop
sequence has no duplicate name-and-code pair; every returned stop is
resolved from the declared stop-point table (its code maps to its name);
and a non-empty result is exactly the first-seen-order deduplication of
the stops resolved, via the table, from a matched journey pattern's
section references' timing-link From/To stop references, for a service
carrying the requested route name and a direction-matched journey
pattern. -/
theorem extract_stops_spec (doc : XmlDoc) (route_name direction : String) :
    (extract_stops_from_xml doc route_name direction).Nodup ∧
    (∀ s ∈ extract_stops_from_xml doc route_name direction,
      dictLookup doc.stopPoints s.atco_code = some s.name) ∧
    (extract_stops_from_xml doc route_name direction ≠ [] →
      ∃ svc ∈ doc.services, route_name ∈ svc.lineNames ∧
        ∃ jp ∈ svc.journeyPatterns, directionMatches direction jp = true ∧
          extract_stops_from_xml doc route_name direction =
            dedupFirst (resolvedStops doc jp)) := by
  rcases serviceLoop_spec doc direction route_name doc.services with
    h | ⟨svc, hmem, hline, jp, hjmem, hm, heq⟩
  · simp [extract_stops_from_xml, h]
  · have hx : extract_stops_from_xml doc route_name direction =
        dedupFirst (resolvedStops doc jp) := by
      rw [extract_stops_from_xml, heq, stopSequenceOf_eq]
    refine ⟨?_, ?_, fun _ => ⟨svc, hmem, hline, jp, hjmem, hm, hx⟩⟩
    · rw [hx]; exact dedupFirst_nodup _
    · intro s hs
      rw [hx] at hs
      have hs2 : s ∈ resolvedStops doc jp := (dedupFirst_sublist _).subset hs
      unfold resolvedStops at hs2
      obtain ⟨sid, hmem2, hmap⟩ := List.mem_filterMap.mp hs2
      rcases hd : dictLookup doc.stopPoints sid with _ | nm
      · rw [hd] at hmap; simp at hmap
      · rw [hd] at hmap
        obtain rfl : (⟨nm, sid⟩ : Stop) = s := by simpa using hmap
        simpa using hd
